import Mathlib

/-!
Verification of the rule-merging core of `cleanup-fastmail-rules.py`.

The program reads a list of Fastmail rules (JSON objects), finds the rules
that file into the same folder using only `from:ADDRESS` search terms, and
collapses them into a single rule per folder whose `search` is the
de-duplicated `" OR "`-join of all the addresses.

Embedding choices:
* Python strings are modelled as `List Char` (code-point sequences), so all
  string operations are plain structural recursion and evaluate in the kernel.
* A rule dictionary is modelled by the `Rule` structure: the two fields the
  program inspects (`search`, `fileIn`, both possibly absent, i.e. `Option`)
  plus an opaque `payload` standing for all remaining key/value pairs, which
  the program only ever copies around.
* `rule.get(k)` returning `None` for a missing key is `Option`; Python string
  truthiness (`if not s`) is the non-emptiness test.
-/

/-- The whitespace test used by Python both for `str.strip()` and for `\s`
in regular expressions, restricted to the ASCII range (space, tab, newline,
carriage return, vertical tab `\x0b`, form feed `\x0c`).  Python additionally
treats some non-ASCII Unicode code points as whitespace in both places; since
the very same set is used by both call sites here, exactly as in the source,
none of the verified properties depend on that difference. -/
def pySpace (c : Char) : Bool :=
  c = ' ' || c = '\t' || c = '\n' || c = '\r' || c.toNat = 11 || c.toNat = 12

/-- The literal separator `" OR "` that the program splits and joins on. -/
def sepOR : List Char := [' ', 'O', 'R', ' ']

/-- The literal 5-character prefix `"from:"`. -/
def fromPref : List Char := ['f', 'r', 'o', 'm', ':']

/-- One Fastmail rule: the two fields the script looks at, plus the opaque
remainder of the JSON object (all other keys), which is only copied. -/
structure Rule where
  search : Option (List Char)
  fileIn : Option (List Char)
  payload : List (List Char × List Char)
deriving DecidableEq

/-- Python's `s.split(' OR ')`: split at each non-overlapping occurrence of
the separator, scanning left to right.  Splitting the empty string yields
`[""]`, exactly as in Python.  The fixed four-character separator is matched
literally so that the recursion is structural. -/
def splitOR : List Char → List (List Char)
  | [] => [[]]
  | ' ' :: 'O' :: 'R' :: ' ' :: rest => [] :: splitOR rest
  | c :: cs => (splitOR cs).modifyHead (fun t => c :: t)

/-- Python's `s.strip()`: drop whitespace from both ends. -/
def stripChars (s : List Char) : List Char :=
  ((s.dropWhile pySpace).reverse.dropWhile pySpace).reverse

/-- `re.match(r'^from:[^\s]+$', term)` viewed as a Boolean test: the term is
the literal prefix `from:` followed by one or more non-whitespace characters
and nothing else.  (Python's `$` would also match just before a final
newline, but the program only applies the pattern to terms that have been
`strip()`ped, which can never end in a newline, so the simple reading is
exact at every call site.) -/
def termMatches (t : List Char) : Bool :=
  fromPref.isPrefixOf t && !(t.drop 5).isEmpty && (t.drop 5).all (fun c => !pySpace c)

/-- `is_from_rule(rule)`: the rule's `search` is present and non-empty
(`if not search: return False`) and every `" OR "`-separated, stripped term
matches `^from:[^\s]+$`. -/
def is_from_rule (r : Rule) : Bool :=
  match r.search with
  | none => false
  | some s => !s.isEmpty && ((splitOR s).map stripChars).all termMatches

/-- `extract_emails(search)`: split on `" OR "`, strip each term, and remove
the first five characters (`'from:'`) of each term. -/
def extract_emails (s : List Char) : List (List Char) :=
  ((splitOR s).map stripChars).map (fun t => t.drop 5)

/-- `list(dict.fromkeys(l))`: iterate over `l` inserting each element as a
dictionary key; a key is added at its first occurrence and later duplicates
are ignored, so the insertion order read back is the first-occurrence order. -/
def dictFromKeys {α : Type} [DecidableEq α] (l : List α) : List α :=
  l.foldl (fun acc a => if a ∈ acc then acc else acc ++ [a]) []

/-- Python's `' OR '.join(parts)`. -/
def joinOR : List (List Char) → List Char
  | [] => []
  | [p] => p
  | p :: q :: ps => p ++ sepOR ++ joinOR (q :: ps)

/-- The candidate test of `combine_rules_for_folder`:
`rule.get('fileIn') == target_folder and is_from_rule(rule)`.  (A missing
`fileIn` is `None`, which is never equal to the string `target_folder`.) -/
def isCandidate (target : List Char) (r : Rule) : Bool :=
  decide (r.fileIn = some target) && is_from_rule r

/-- `combine_rules_for_folder(rules, target_folder)`: partition off the
candidate rules for the folder; with at most one candidate return the input
unchanged; otherwise copy the first candidate, overwrite its `search` with
the `" OR "`-join of `from:` + each de-duplicated address extracted from all
candidates in order, and return the merged rule followed by the others.
(The source reads `rule['search']`, which is always present on a candidate
because `is_from_rule` already held; `Option.getD []` supplies the same
value in `Option` form.) -/
def combine_rules_for_folder (rules : List Rule) (target : List Char) : List Rule :=
  let to_combine := rules.filter (isCandidate target)
  let other_rules := rules.filter (fun r => !isCandidate target r)
  match to_combine with
  | [] => rules
  | [_] => rules
  | template :: _ :: _ =>
    let all_emails := (rules.filter (isCandidate target)).flatMap
      (fun r => extract_emails (r.search.getD []))
    let unique_emails := dictFromKeys all_emails
    { template with
      search := some (joinOR (unique_emails.map (fun e => fromPref ++ e))) } :: other_rules

/-- The folder-collection step of `combine_all_folders`: a rule contributes
its `fileIn` when `rule.get('fileIn')` is truthy (present and non-empty) and
`is_from_rule(rule)` holds.  The Python `set` of folders is modelled as the
first-occurrence de-duplicated list; `sorted(...)` below makes the order
canonical exactly as in the source. -/
def foldersOf (rules : List Rule) : List (List Char) :=
  dictFromKeys (rules.filterMap (fun r =>
    match r.fileIn with
    | none => none
    | some f => if !f.isEmpty && is_from_rule r then some f else none))

/-- `combine_all_folders(rules)`: collect the qualifying folders, sort them
(Python's `sorted` on strings is ascending lexicographic code-point order,
which is exactly the `≤` of the lexicographic order on `List Char`), and fold
`combine_rules_for_folder` over them starting from the input list. -/
def combine_all_folders (rules : List Rule) : List Rule :=
  ((foldersOf rules).insertionSort (· ≤ ·)).foldl combine_rules_for_folder rules

/-- Spec-side rendering of "the de-duplicated, first-occurrence-order list":
keep each head and erase its later duplicates.  Compared against the
source-side `dictFromKeys` model below. -/
def firstOccurrenceDedup {α : Type} [DecidableEq α] : List α → List α
  | [] => []
  | a :: l => a :: firstOccurrenceDedup (l.filter (fun b => b ≠ a))
termination_by l => l.length
decreasing_by
  simp only [List.length_cons]
  exact Nat.lt_succ_of_le (l.length_filter_le _)

/-- The number of qualifying candidate rules a folder has in a rule list. -/
def candCount (rules : List Rule) (target : List Char) : Nat :=
  (rules.filter (isCandidate target)).length

/-- Concrete fixture: a rule filing `from:a` into folder `F`. -/
def exampleRuleA : Rule :=
  { search := some (fromPref ++ ['a']), fileIn := some ['F'], payload := [] }

/-- Concrete fixture: a rule filing `from:b` into folder `F`. -/
def exampleRuleB : Rule :=
  { search := some (fromPref ++ ['b']), fileIn := some ['F'], payload := [] }

/-- Concrete fixture: a rule filing `from:a OR from:b` into folder `F`. -/
def exampleRuleAB : Rule :=
  { search := some (fromPref ++ ['a'] ++ sepOR ++ fromPref ++ ['b']),
    fileIn := some ['F'], payload := [] }

/-- Concrete fixture: a rule with no `search`, filing into folder `F`. -/
def exampleRuleNoSearch : Rule :=
  { search := none, fileIn := some ['F'], payload := [] }

/-- Concrete fixture: a rule with neither `search` nor `fileIn`. -/
def exampleRuleBare : Rule :=
  { search := none, fileIn := none, payload := [] }

-- Sanity checks against the behaviour of the Python source.
example : splitOR (['a'] ++ sepOR ++ ['b']) = [['a'], ['b']] := by decide
example : splitOR [] = [[]] := by decide
example : splitOR sepOR = [[], []] := by decide
example : stripChars [' ', 'a', ' '] = ['a'] := by decide
example : termMatches (fromPref ++ ['a']) = true := by decide
example : termMatches fromPref = false := by decide
example : is_from_rule ⟨some (fromPref ++ ['a'] ++ sepOR ++ fromPref ++ ['b']), none, []⟩
    = true := by decide
example : is_from_rule ⟨some [], none, []⟩ = false := by decide
example : extract_emails (fromPref ++ ['a'] ++ sepOR ++ fromPref ++ ['b']) = [['a'], ['b']]
    := by decide
example : dictFromKeys [['a'], ['b'], ['a']] = [['a'], ['b']] := by decide
example : joinOR [['a'], ['b']] = ['a'] ++ sepOR ++ ['b'] := by decide

/-! ### Lemmas about `splitOR`, `stripChars`, `termMatches`, `joinOR` -/

theorem splitOR_sep_append (rest : List Char) :
    splitOR (sepOR ++ rest) = [] :: splitOR rest := rfl

theorem splitOR_cons_guard (c : Char) (cs : List Char)
    (h : ∀ rest : List Char, c = ' ' → cs = 'O' :: 'R' :: ' ' :: rest → False) :
    splitOR (c :: cs) = (splitOR cs).modifyHead (fun t => c :: t) := by
  rw [splitOR.eq_def]
  split
  · rename_i heq; simp at heq
  · rename_i rest heq
    injection heq with h1 h2
    exact (h rest h1 h2).elim
  · rename_i c' cs' heq
    injection heq with h1 h2
    rw [h1, h2]

theorem splitOR_cons_of_ne_space (c : Char) (cs : List Char) (h : c ≠ ' ') :
    splitOR (c :: cs) = (splitOR cs).modifyHead (fun t => c :: t) :=
  splitOR_cons_guard c cs (fun _ hc _ => h hc)

theorem splitOR_ne_nil (s : List Char) : splitOR s ≠ [] := by
  induction s using splitOR.induct with
  | case1 => simp [splitOR]
  | case2 rest ih => simp [splitOR]
  | case3 c cs h ih =>
    rw [splitOR_cons_guard c cs h]
    cases hcs : splitOR cs with
    | nil => exact absurd hcs ih
    | cons t ts => simp [List.modifyHead]

theorem splitOR_no_space (p : List Char) (hp : ∀ c ∈ p, c ≠ ' ') :
    splitOR p = [p] := by
  induction p with
  | nil => rfl
  | cons c cs ih =>
    rw [splitOR_cons_of_ne_space c cs (hp c (List.mem_cons_self c cs)),
      ih (fun x hx => hp x (List.mem_cons_of_mem c hx))]
    simp [List.modifyHead]

theorem splitOR_append_sep (p t : List Char) (hp : ∀ c ∈ p, c ≠ ' ') :
    splitOR (p ++ (sepOR ++ t)) = p :: splitOR t := by
  induction p with
  | nil => simpa using splitOR_sep_append t
  | cons c cs ih =>
    rw [List.cons_append, splitOR_cons_of_ne_space c _ (hp c (List.mem_cons_self c cs)),
      ih (fun x hx => hp x (List.mem_cons_of_mem c hx))]
    simp [List.modifyHead]

theorem splitOR_joinOR (ps : List (List Char)) (h1 : ps ≠ [])
    (h2 : ∀ p ∈ ps, ∀ c ∈ p, c ≠ ' ') : splitOR (joinOR ps) = ps := by
  induction ps with
  | nil => exact absurd rfl h1
  | cons p ps ih =>
    cases ps with
    | nil => exact splitOR_no_space p (h2 p (List.mem_cons_self p []))
    | cons q ps' =>
      rw [joinOR, List.append_assoc,
        splitOR_append_sep p _ (h2 p (List.mem_cons_self p _)),
        ih (List.cons_ne_nil q ps') (fun x hx => h2 x (List.mem_cons_of_mem p hx))]

theorem dropWhile_eq_self_of_false {p : Char → Bool} :
    ∀ s : List Char, (∀ c ∈ s, p c = false) → s.dropWhile p = s
  | [], _ => rfl
  | c :: cs, h => by
    rw [List.dropWhile_cons, h c (List.mem_cons_self c cs)]
    simp

theorem stripChars_eq_self (s : List Char) (h : ∀ c ∈ s, pySpace c = false) :
    stripChars s = s := by
  unfold stripChars
  rw [dropWhile_eq_self_of_false s h,
    dropWhile_eq_self_of_false s.reverse (fun c hc => h c (List.mem_reverse.mp hc)),
    List.reverse_reverse]

theorem isPrefixOf_iff_exists_append (p : List Char) :
    ∀ t : List Char, p.isPrefixOf t = true ↔ ∃ w, t = p ++ w := by
  induction p with
  | nil =>
    intro t
    simp [List.isPrefixOf]
  | cons a p ih =>
    intro t
    cases t with
    | nil =>
      simp [List.isPrefixOf]
    | cons b t' =>
      simp only [List.isPrefixOf, Bool.and_eq_true, beq_iff_eq, ih t', List.cons_append,
        List.cons.injEq]
      constructor
      · rintro ⟨rfl, w, rfl⟩
        exact ⟨w, rfl, rfl⟩
      · rintro ⟨w, rfl, rfl⟩
        exact ⟨rfl, w, rfl⟩

theorem termMatches_iff (t : List Char) :
    termMatches t = true ↔
      ∃ w, t = fromPref ++ w ∧ w ≠ [] ∧ ∀ c ∈ w, pySpace c = false := by
  unfold termMatches
  constructor
  · intro h
    simp only [Bool.and_eq_true] at h
    obtain ⟨⟨hpre, hne⟩, hall⟩ := h
    rw [isPrefixOf_iff_exists_append] at hpre
    obtain ⟨w, hw⟩ := hpre
    refine ⟨w, hw, ?_, ?_⟩
    · intro hnil
      rw [hw, hnil, List.append_nil] at hne
      simp [fromPref] at hne
    · intro c hc
      have hdrop : t.drop 5 = w := by
        rw [hw]
        have : (5 : Nat) = fromPref.length := rfl
        rw [this, List.drop_left]
      rw [List.all_eq_true] at hall
      have := hall c (by rw [hdrop]; exact hc)
      simpa using this
  · rintro ⟨w, rfl, hw, hall⟩
    have hdrop : (fromPref ++ w).drop 5 = w := by
      have : (5 : Nat) = fromPref.length := rfl
      rw [this, List.drop_left]
    simp only [Bool.and_eq_true]
    refine ⟨⟨?_, ?_⟩, ?_⟩
    · rw [isPrefixOf_iff_exists_append]
      exact ⟨w, rfl⟩
    · rw [hdrop]
      simpa using hw
    · rw [hdrop, List.all_eq_true]
      intro c hc
      simp [hall c hc]

/-! ### De-duplication: `dictFromKeys` agrees with the spec-side dedup -/

theorem mem_firstOccurrenceDedup {α : Type} [DecidableEq α] (l : List α) (x : α) :
    x ∈ firstOccurrenceDedup l ↔ x ∈ l := by
  induction l using firstOccurrenceDedup.induct with
  | case1 => simp [firstOccurrenceDedup]
  | case2 a l ih =>
    simp only [firstOccurrenceDedup, List.mem_cons, ih, List.mem_filter,
      decide_eq_true_eq]
    by_cases hx : x = a
    · simp [hx]
    · simp [hx]

theorem nodup_firstOccurrenceDedup {α : Type} [DecidableEq α] (l : List α) :
    (firstOccurrenceDedup l).Nodup := by
  induction l using firstOccurrenceDedup.induct with
  | case1 => simp [firstOccurrenceDedup]
  | case2 a l ih =>
    simp only [firstOccurrenceDedup, List.nodup_cons]
    refine ⟨?_, ih⟩
    rw [mem_firstOccurrenceDedup]
    simp [List.mem_filter]

theorem foldl_dictInsert {α : Type} [DecidableEq α] (l acc : List α) :
    List.foldl (fun acc a => if a ∈ acc then acc else acc ++ [a]) acc l
      = acc ++ firstOccurrenceDedup (l.filter (fun b => b ∉ acc)) := by
  induction l generalizing acc with
  | nil => simp [firstOccurrenceDedup]
  | cons a l ih =>
    rw [List.foldl_cons]
    by_cases ha : a ∈ acc
    · rw [if_pos ha, ih]
      congr 2
      rw [List.filter_cons]
      simp [ha]
    · rw [if_neg ha, ih]
      have hpred : ∀ b ∈ l, (decide (b ∉ acc ++ [a]))
          = (decide (b ≠ a) && decide (b ∉ acc)) := by
        intro b _
        by_cases h1 : b = a <;> by_cases h2 : b ∈ acc <;>
          simp [h1, h2, List.mem_append]
      rw [List.filter_congr hpred, ← List.filter_filter]
      have hcons : List.filter (fun b => decide (b ∉ acc)) (a :: l)
          = a :: List.filter (fun b => decide (b ∉ acc)) l := by
        rw [List.filter_cons, if_pos (by simpa using ha)]
      rw [hcons, firstOccurrenceDedup, List.append_assoc, List.singleton_append]

theorem dictFromKeys_eq_firstOccurrenceDedup {α : Type} [DecidableEq α] (l : List α) :
    dictFromKeys l = firstOccurrenceDedup l := by
  unfold dictFromKeys
  rw [foldl_dictInsert, List.nil_append]
  congr 1
  rw [List.filter_eq_self]
  intro a _
  simp

theorem mem_dictFromKeys {α : Type} [DecidableEq α] (l : List α) (x : α) :
    x ∈ dictFromKeys l ↔ x ∈ l := by
  rw [dictFromKeys_eq_firstOccurrenceDedup]
  exact mem_firstOccurrenceDedup l x

theorem nodup_dictFromKeys {α : Type} [DecidableEq α] (l : List α) :
    (dictFromKeys l).Nodup := by
  rw [dictFromKeys_eq_firstOccurrenceDedup]
  exact nodup_firstOccurrenceDedup l

theorem dictFromKeys_ne_nil {α : Type} [DecidableEq α] (l : List α) (h : l ≠ []) :
    dictFromKeys l ≠ [] := by
  cases l with
  | nil => exact absurd rfl h
  | cons a l =>
    rw [dictFromKeys_eq_firstOccurrenceDedup, firstOccurrenceDedup]
    exact List.cons_ne_nil _ _

/-! ### Consequences of `is_from_rule` for the extracted addresses -/

theorem is_from_rule_elim (r : Rule) (h : is_from_rule r = true) :
    ∃ s, r.search = some s ∧ s ≠ [] ∧
      ((splitOR s).map stripChars).all termMatches = true := by
  unfold is_from_rule at h
  cases hs : r.search with
  | none => rw [hs] at h; simp at h
  | some s =>
    rw [hs] at h
    rw [Bool.and_eq_true] at h
    exact ⟨s, rfl, by simpa using h.1, h.2⟩

theorem extract_emails_good (s : List Char)
    (h : ((splitOR s).map stripChars).all termMatches = true) :
    ∀ e ∈ extract_emails s, e ≠ [] ∧ ∀ c ∈ e, pySpace c = false := by
  intro e he
  unfold extract_emails at he
  rw [List.mem_map] at he
  obtain ⟨t, ht, rfl⟩ := he
  rw [List.all_eq_true] at h
  obtain ⟨w, rfl, hw, hall⟩ := (termMatches_iff t).mp (h t ht)
  have hdrop : (fromPref ++ w).drop 5 = w := by
    have h5 : (5 : Nat) = fromPref.length := rfl
    rw [h5, List.drop_left]
  rw [hdrop]
  exact ⟨hw, hall⟩

theorem extract_emails_ne_nil (s : List Char) : extract_emails s ≠ [] := by
  unfold extract_emails
  simp [splitOR_ne_nil s]

theorem fromPref_email_no_space (e : List Char) (h : ∀ c ∈ e, pySpace c = false) :
    ∀ c ∈ fromPref ++ e, pySpace c = false := by
  intro c hc
  rw [List.mem_append] at hc
  rcases hc with hc | hc
  · simp only [fromPref, List.mem_cons, List.not_mem_nil, or_false] at hc
    rcases hc with rfl | rfl | rfl | rfl | rfl <;> decide
  · exact h c hc

theorem ne_space_of_pySpace_false {c : Char} (h : pySpace c = false) : c ≠ ' ' := by
  intro hEq
  subst hEq
  exact absurd h (by decide)

theorem joinOR_cons_shape (p : List Char) (ps : List (List Char)) :
    ∃ t, joinOR (p :: ps) = p ++ t := by
  cases ps with
  | nil => exact ⟨[], by simp [joinOR]⟩
  | cons q ps' => exact ⟨sepOR ++ joinOR (q :: ps'), by simp [joinOR, List.append_assoc]⟩

theorem splitOR_join_emails (emails : List (List Char)) (hne : emails ≠ [])
    (hgood : ∀ e ∈ emails, ∀ c ∈ e, pySpace c = false) :
    splitOR (joinOR (emails.map (fun e => fromPref ++ e)))
      = emails.map (fun e => fromPref ++ e) := by
  apply splitOR_joinOR
  · simpa using hne
  · intro p hp
    rw [List.mem_map] at hp
    obtain ⟨e, he, rfl⟩ := hp
    intro c hc
    exact ne_space_of_pySpace_false (fromPref_email_no_space e (hgood e he) c hc)

/-! ### The merged rule built from a candidate list -/

theorem isCandidate_iff (target : List Char) (r : Rule) :
    isCandidate target r = true ↔ r.fileIn = some target ∧ is_from_rule r = true := by
  simp [isCandidate]

theorem is_from_rule_set_search (r0 : Rule) (emails : List (List Char)) (hne : emails ≠ [])
    (hgood : ∀ e ∈ emails, e ≠ [] ∧ ∀ c ∈ e, pySpace c = false) :
    is_from_rule
      { r0 with search := some (joinOR (emails.map (fun e => fromPref ++ e))) } = true := by
  have hgood2 : ∀ e ∈ emails, ∀ c ∈ e, pySpace c = false := fun e he => (hgood e he).2
  obtain ⟨e0, rest, rfl⟩ : ∃ e0 rest, emails = e0 :: rest := by
    cases emails with
    | nil => exact absurd rfl hne
    | cons x xs => exact ⟨x, xs, rfl⟩
  have hsplit := splitOR_join_emails (e0 :: rest) hne hgood2
  have hunfold : is_from_rule
      { r0 with search := some (joinOR ((e0 :: rest).map (fun e => fromPref ++ e))) }
      = (!(joinOR ((e0 :: rest).map (fun e => fromPref ++ e))).isEmpty &&
        ((splitOR (joinOR ((e0 :: rest).map (fun e => fromPref ++ e)))).map
          stripChars).all termMatches) := rfl
  rw [hunfold, Bool.and_eq_true]
  constructor
  · rw [List.map_cons]
    obtain ⟨t, ht⟩ := joinOR_cons_shape (fromPref ++ e0) (rest.map (fun e => fromPref ++ e))
    rw [ht]
    simp [fromPref]
  · rw [hsplit, List.all_eq_true]
    intro t ht
    rw [List.mem_map] at ht
    obtain ⟨p, hp, rfl⟩ := ht
    rw [List.mem_map] at hp
    obtain ⟨e, he, rfl⟩ := hp
    rw [stripChars_eq_self _ (fromPref_email_no_space e (hgood2 e he))]
    exact (termMatches_iff _).mpr ⟨e, rfl, (hgood e he).1, (hgood e he).2⟩

theorem candidate_emails_good (r : Rule) (h : is_from_rule r = true) :
    ∀ e ∈ extract_emails (r.search.getD []), e ≠ [] ∧ ∀ c ∈ e, pySpace c = false := by
  obtain ⟨s, hs, _, hall⟩ := is_from_rule_elim r h
  rw [hs, Option.getD_some]
  exact extract_emails_good s hall

theorem flatMap_emails_good (cands : List Rule)
    (hc : ∀ r ∈ cands, is_from_rule r = true) :
    ∀ e ∈ cands.flatMap (fun r => extract_emails (r.search.getD [])),
      e ≠ [] ∧ ∀ c ∈ e, pySpace c = false := by
  intro e he
  rw [List.mem_flatMap] at he
  obtain ⟨r, hr, he⟩ := he
  exact candidate_emails_good r (hc r hr) e he

theorem flatMap_emails_ne_nil (cands : List Rule) (hne : cands ≠ []) :
    cands.flatMap (fun r => extract_emails (r.search.getD [])) ≠ [] := by
  cases cands with
  | nil => exact absurd rfl hne
  | cons r rest =>
    rw [List.flatMap_cons]
    intro h
    rw [List.append_eq_nil] at h
    exact extract_emails_ne_nil _ h.1

theorem merged_rule_isCandidate (target : List Char) (template : Rule) (cands : List Rule)
    (htemp : isCandidate target template = true)
    (hcands : ∀ r ∈ cands, isCandidate target r = true) (hne : cands ≠ []) :
    isCandidate target
      { template with search := some (joinOR ((dictFromKeys
          (cands.flatMap (fun r => extract_emails (r.search.getD [])))).map
          (fun e => fromPref ++ e))) } = true := by
  rw [isCandidate_iff]
  constructor
  · exact ((isCandidate_iff target template).mp htemp).1
  · apply is_from_rule_set_search
    · exact dictFromKeys_ne_nil _ (flatMap_emails_ne_nil cands hne)
    · intro e he
      rw [mem_dictFromKeys] at he
      exact flatMap_emails_good cands
        (fun r hr => ((isCandidate_iff target r).mp (hcands r hr)).2) e he

/-! ### Case equations for `combine_rules_for_folder` -/

theorem combine_rules_le_one (rules : List Rule) (target : List Char)
    (h : candCount rules target ≤ 1) :
    combine_rules_for_folder rules target = rules := by
  unfold candCount at h
  rcases hf : rules.filter (isCandidate target) with _ | ⟨a, _ | ⟨b, t⟩⟩
  · simp [combine_rules_for_folder, hf]
  · simp [combine_rules_for_folder, hf]
  · rw [hf] at h
    simp at h

theorem combine_rules_merge (rules : List Rule) (target : List Char)
    (template c2 : Rule) (rest : List Rule)
    (hf : rules.filter (isCandidate target) = template :: c2 :: rest) :
    combine_rules_for_folder rules target =
      { template with search := some (joinOR ((dictFromKeys
          ((template :: c2 :: rest).flatMap (fun r => extract_emails (r.search.getD [])))).map
          (fun e => fromPref ++ e))) }
        :: rules.filter (fun r => !isCandidate target r) := by
  simp [combine_rules_for_folder, hf]

/-! ### Candidate counts across merge steps -/

theorem filter_anti {α : Type} (p : α → Bool) (l : List α) :
    (l.filter (fun a => !p a)).filter p = [] := by
  induction l with
  | nil => rfl
  | cons a l ih => cases h : p a <;> simp [List.filter_cons, h, ih]

theorem candCount_cons (r : Rule) (l : List Rule) (f : List Char) :
    candCount (r :: l) f = (if isCandidate f r then 1 else 0) + candCount l f := by
  unfold candCount
  rw [List.filter_cons]
  cases h : isCandidate f r
  · simp [h]
  · simp [h]
    omega

theorem candCount_combine_self (rules : List Rule) (target : List Char) :
    candCount (combine_rules_for_folder rules target) target ≤ 1 := by
  rcases hf : rules.filter (isCandidate target) with _ | ⟨a, _ | ⟨b, t⟩⟩
  · rw [combine_rules_le_one rules target (by unfold candCount; rw [hf]; simp)]
    unfold candCount
    rw [hf]
    simp
  · rw [combine_rules_le_one rules target (by unfold candCount; rw [hf]; simp)]
    unfold candCount
    rw [hf]
    simp
  · rw [combine_rules_merge rules target a b t hf, candCount_cons]
    have h0 : candCount (rules.filter (fun r => !isCandidate target r)) target = 0 := by
      unfold candCount
      rw [filter_anti]
      rfl
    rw [h0]
    cases isCandidate target ({ a with search := some (joinOR ((dictFromKeys
        ((a :: b :: t).flatMap (fun r => extract_emails (r.search.getD [])))).map
        (fun e => fromPref ++ e))) } : Rule) <;> simp

theorem candCount_combine_other (rules : List Rule) (target f : List Char)
    (hne : f ≠ target) :
    candCount (combine_rules_for_folder rules target) f = candCount rules f := by
  rcases hf : rules.filter (isCandidate target) with _ | ⟨a, _ | ⟨b, t⟩⟩
  · rw [combine_rules_le_one rules target (by unfold candCount; rw [hf]; simp)]
  · rw [combine_rules_le_one rules target (by unfold candCount; rw [hf]; simp)]
  · rw [combine_rules_merge rules target a b t hf, candCount_cons]
    have ha : isCandidate target a = true :=
      List.of_mem_filter (p := isCandidate target)
        (by rw [hf]; exact List.mem_cons_self _ _)
    have hfi : a.fileIn = some target := ((isCandidate_iff target a).mp ha).1
    have hm : isCandidate f ({ a with search := some (joinOR ((dictFromKeys
        ((a :: b :: t).flatMap (fun r => extract_emails (r.search.getD [])))).map
        (fun e => fromPref ++ e))) } : Rule) = false := by
      simp [isCandidate, hfi, Ne.symm hne]
    rw [hm]
    simp only [Bool.false_eq_true, if_false, Nat.zero_add]
    unfold candCount
    rw [List.filter_filter]
    apply congrArg List.length
    apply List.filter_congr
    intro r hr
    cases hc : isCandidate f r
    · simp
    · have h1 : r.fileIn = some f := ((isCandidate_iff f r).mp hc).1
      have h2 : isCandidate target r = false := by
        simp [isCandidate, h1, hne]
      simp [h2]

/-! ### Folding over the sorted folder list -/

theorem candCount_foldl_le_one (l : List (List Char)) (lst : List Rule) (f : List Char)
    (h : candCount lst f ≤ 1) :
    candCount (l.foldl combine_rules_for_folder lst) f ≤ 1 := by
  induction l generalizing lst with
  | nil => exact h
  | cons g l ih =>
    rw [List.foldl_cons]
    apply ih
    by_cases hg : f = g
    · subst hg
      exact candCount_combine_self lst f
    · rw [candCount_combine_other lst g f hg]
      exact h

theorem candCount_foldl_mem (l : List (List Char)) (lst : List Rule) (f : List Char)
    (h : f ∈ l) :
    candCount (l.foldl combine_rules_for_folder lst) f ≤ 1 := by
  induction l generalizing lst with
  | nil => simp at h
  | cons g l ih =>
    rw [List.foldl_cons]
    rcases List.mem_cons.mp h with rfl | h'
    · exact candCount_foldl_le_one l _ f (candCount_combine_self lst f)
    · exact ih _ h'

theorem foldl_combine_no_op (l : List (List Char)) (lst : List Rule)
    (h : ∀ f ∈ l, candCount lst f ≤ 1) :
    l.foldl combine_rules_for_folder lst = lst := by
  induction l with
  | nil => rfl
  | cons g l ih =>
    rw [List.foldl_cons, combine_rules_le_one lst g (h g (List.mem_cons_self g l))]
    exact ih (fun f hf => h f (List.mem_cons_of_mem g hf))

theorem mem_foldersOf (rules : List Rule) (f : List Char) :
    f ∈ foldersOf rules ↔
      ∃ r ∈ rules, r.fileIn = some f ∧ f ≠ [] ∧ is_from_rule r = true := by
  unfold foldersOf
  rw [mem_dictFromKeys, List.mem_filterMap]
  constructor
  · rintro ⟨r, hr, hq⟩
    cases hfi : r.fileIn with
    | none => rw [hfi] at hq; simp at hq
    | some g =>
      rw [hfi] at hq
      by_cases hg : (!g.isEmpty && is_from_rule r) = true
      · simp only [hg, if_true] at hq
        injection hq with h1
        subst h1
        rw [Bool.and_eq_true] at hg
        exact ⟨r, hr, hfi, by simpa using hg.1, hg.2⟩
      · simp only [hg, if_false, reduceCtorEq] at hq
  · rintro ⟨r, hr, hfi, hne, hfr⟩
    refine ⟨r, hr, ?_⟩
    rw [hfi]
    have hcond : (!f.isEmpty && is_from_rule r) = true := by
      rw [Bool.and_eq_true]
      exact ⟨by simpa using hne, hfr⟩
    simp only [hcond, if_true]

theorem mem_foldersOf_of_candCount (rules : List Rule) (f : List Char)
    (hne : f ≠ []) (h : 1 ≤ candCount rules f) :
    f ∈ foldersOf rules := by
  unfold candCount at h
  obtain ⟨r, hr⟩ : ∃ r, r ∈ rules.filter (isCandidate f) := by
    cases hfil : rules.filter (isCandidate f) with
    | nil => rw [hfil] at h; simp at h
    | cons a t => exact ⟨a, by simp [hfil]⟩
  obtain ⟨h1, h2⟩ := (isCandidate_iff f r).mp (List.of_mem_filter hr)
  exact (mem_foldersOf rules f).mpr ⟨r, List.mem_of_mem_filter hr, h1, hne, h2⟩

theorem candCount_combine_all_le_one (rules : List Rule) (f : List Char) (hne : f ≠ []) :
    candCount (combine_all_folders rules) f ≤ 1 := by
  unfold combine_all_folders
  by_cases h : candCount rules f ≤ 1
  · exact candCount_foldl_le_one _ _ _ h
  · apply candCount_foldl_mem
    rw [List.mem_insertionSort]
    exact mem_foldersOf_of_candCount rules f hne (by omega)

/-! ### Round trip: the merged search string decodes to its address list -/

theorem extract_emails_join (emails : List (List Char)) (hne : emails ≠ [])
    (hgood : ∀ e ∈ emails, e ≠ [] ∧ ∀ c ∈ e, pySpace c = false) :
    extract_emails (joinOR (emails.map (fun e => fromPref ++ e))) = emails := by
  unfold extract_emails
  rw [splitOR_join_emails emails hne (fun e he => (hgood e he).2)]
  have h1 : (emails.map (fun e => fromPref ++ e)).map stripChars
      = emails.map (fun e => fromPref ++ e) := by
    rw [List.map_map]
    apply List.map_congr_left
    intro e he
    exact stripChars_eq_self _ (fromPref_email_no_space e (hgood e he).2)
  rw [h1, List.map_map]
  have h2 : ∀ e ∈ emails, ((fun t => List.drop 5 t) ∘ fun e => fromPref ++ e) e = id e := by
    intro e _
    simp only [Function.comp_apply, id_eq]
    have h5 : (5 : Nat) = fromPref.length := rfl
    rw [h5, List.drop_left]
  rw [List.map_congr_left h2, List.map_id]

/-! ### One merge step: membership survival and absorption -/

theorem combine_step_preserves_mem (lst : List Rule) (g : List Char) (r : Rule)
    (hr : r ∈ lst) (hc : isCandidate g r = false) :
    r ∈ combine_rules_for_folder lst g := by
  rcases hf : lst.filter (isCandidate g) with _ | ⟨a, _ | ⟨b, t⟩⟩
  · rw [combine_rules_le_one lst g (by unfold candCount; rw [hf]; simp)]
    exact hr
  · rw [combine_rules_le_one lst g (by unfold candCount; rw [hf]; simp)]
    exact hr
  · rw [combine_rules_merge lst g a b t hf]
    exact List.mem_cons_of_mem _ (List.mem_filter.mpr ⟨hr, by simp [hc]⟩)

theorem foldl_preserves_mem (l : List (List Char)) (lst : List Rule) (r : Rule)
    (hr : r ∈ lst) (hc : ∀ g ∈ l, isCandidate g r = false) :
    r ∈ l.foldl combine_rules_for_folder lst := by
  induction l generalizing lst with
  | nil => exact hr
  | cons g l ih =>
    rw [List.foldl_cons]
    exact ih _
      (combine_step_preserves_mem lst g r hr (hc g (List.mem_cons_self g l)))
      (fun g' hg' => hc g' (List.mem_cons_of_mem g hg'))

theorem combine_step_absorb (lst : List Rule) (g : List Char) (r : Rule) (hr : r ∈ lst) :
    r ∈ combine_rules_for_folder lst g ∨
      (isCandidate g r = true ∧
        ∃ m rest2, combine_rules_for_folder lst g = m :: rest2 ∧ isCandidate g m = true ∧
          ∀ e ∈ extract_emails (r.search.getD []),
            e ∈ extract_emails (m.search.getD [])) := by
  rcases hf : lst.filter (isCandidate g) with _ | ⟨a, _ | ⟨b, t⟩⟩
  · left
    rw [combine_rules_le_one lst g (by unfold candCount; rw [hf]; simp)]
    exact hr
  · left
    rw [combine_rules_le_one lst g (by unfold candCount; rw [hf]; simp)]
    exact hr
  · by_cases hc : isCandidate g r = true
    · right
      refine ⟨hc, ?_⟩
      have hcands : ∀ x ∈ a :: b :: t, isCandidate g x = true := by
        intro x hx
        exact List.of_mem_filter (p := isCandidate g) (hf ▸ hx)
      have hfr : ∀ x ∈ a :: b :: t, is_from_rule x = true :=
        fun x hx => ((isCandidate_iff g x).mp (hcands x hx)).2
      have hgood : ∀ e ∈ dictFromKeys
          ((a :: b :: t).flatMap (fun x => extract_emails (x.search.getD []))),
          e ≠ [] ∧ ∀ c ∈ e, pySpace c = false := by
        intro e he
        rw [mem_dictFromKeys] at he
        exact flatMap_emails_good _ hfr e he
      have hdne : dictFromKeys
          ((a :: b :: t).flatMap (fun x => extract_emails (x.search.getD []))) ≠ [] :=
        dictFromKeys_ne_nil _ (flatMap_emails_ne_nil _ (List.cons_ne_nil a (b :: t)))
      refine ⟨_, _, combine_rules_merge lst g a b t hf, ?_, ?_⟩
      · exact merged_rule_isCandidate g a (a :: b :: t)
          (hcands a (List.mem_cons_self a (b :: t))) hcands (List.cons_ne_nil a (b :: t))
      · intro e he
        have hround := extract_emails_join _ hdne hgood
        simp only [Option.getD_some]
        rw [hround, mem_dictFromKeys, List.mem_flatMap]
        exact ⟨r, hf ▸ List.mem_filter.mpr ⟨hr, hc⟩, he⟩
    · left
      exact combine_step_preserves_mem lst g r hr (by simpa using hc)

theorem foldl_absorb (l : List (List Char)) (lst : List Rule) (r : Rule)
    (hr : r ∈ lst) (hnodup : l.Nodup) :
    r ∈ l.foldl combine_rules_for_folder lst ∨
      ∃ g ∈ l, isCandidate g r = true ∧
        ∃ m, m ∈ l.foldl combine_rules_for_folder lst ∧ isCandidate g m = true ∧
          ∀ e ∈ extract_emails (r.search.getD []),
            e ∈ extract_emails (m.search.getD []) := by
  induction l generalizing lst with
  | nil => left; exact hr
  | cons g l ih =>
    rw [List.foldl_cons]
    rcases combine_step_absorb lst g r hr with hmem | ⟨hc, m, rest2, heq, hcm, hsub⟩
    · rcases ih (combine_rules_for_folder lst g) hmem hnodup.of_cons with
        h1 | ⟨g', hg', hcg', m, hm, hcm, hsub⟩
      · left; exact h1
      · right; exact ⟨g', List.mem_cons_of_mem g hg', hcg', m, hm, hcm, hsub⟩
    · right
      have hmf : m.fileIn = some g := ((isCandidate_iff g m).mp hcm).1
      have hml : m ∈ combine_rules_for_folder lst g := by
        rw [heq]; exact List.mem_cons_self m rest2
      have hnotin : ∀ g' ∈ l, isCandidate g' m = false := by
        intro g' hg'
        have hgne : g ≠ g' := by
          rintro rfl
          exact (List.nodup_cons.mp hnodup).1 hg'
        simp [isCandidate, hmf, hgne]
      exact ⟨g, List.mem_cons_self g l, hc, m,
        foldl_preserves_mem l _ m hml hnotin, hcm, hsub⟩

theorem cand_unique_of_le_one (lst : List Rule) (f : List Char)
    (h : candCount lst f ≤ 1) (m m' : Rule) (hm : m ∈ lst) (hcm : isCandidate f m = true)
    (hm' : m' ∈ lst) (hcm' : isCandidate f m' = true) : m' = m := by
  have h1 : m ∈ lst.filter (isCandidate f) := List.mem_filter.mpr ⟨hm, hcm⟩
  have h2 : m' ∈ lst.filter (isCandidate f) := List.mem_filter.mpr ⟨hm', hcm'⟩
  unfold candCount at h
  cases hfil : lst.filter (isCandidate f) with
  | nil => rw [hfil] at h1; simp at h1
  | cons x xs =>
    rw [hfil] at h h1 h2
    have hxs : xs = [] := by
      rw [List.length_cons] at h
      exact List.eq_nil_of_length_eq_zero (by omega)
    subst hxs
    rw [List.mem_singleton] at h1 h2
    rw [h1, h2]

/-! ### Count preservation for pass-through rules -/

theorem count_filter_of_pred {α : Type} [DecidableEq α] (p : α → Bool) (l : List α) (a : α)
    (h : p a = true) : (l.filter p).count a = l.count a := by
  induction l with
  | nil => rfl
  | cons b l ih =>
    rw [List.filter_cons]
    cases hpb : p b
    · have hba : ¬ b = a := fun hEq => by rw [hEq, h] at hpb; cases hpb
      simp [ih, hba, List.count_cons]
    · simp only [if_true, List.count_cons, ih]

theorem isCandidate_false_of_missing (r : Rule) (hs : r.search = none ∨ r.fileIn = none)
    (f : List Char) : isCandidate f r = false := by
  rcases hs with h | h
  · have hfr : is_from_rule r = false := by
      unfold is_from_rule
      rw [h]
    simp [isCandidate, hfr]
  · simp [isCandidate, h]

theorem count_combine_step (lst : List Rule) (g : List Char) (r : Rule)
    (hs : r.search = none ∨ r.fileIn = none) :
    (combine_rules_for_folder lst g).count r = lst.count r := by
  rcases hf : lst.filter (isCandidate g) with _ | ⟨a, _ | ⟨b, t⟩⟩
  · rw [combine_rules_le_one lst g (by unfold candCount; rw [hf]; simp)]
  · rw [combine_rules_le_one lst g (by unfold candCount; rw [hf]; simp)]
  · rw [combine_rules_merge lst g a b t hf]
    have ha : isCandidate g a = true :=
      List.of_mem_filter (p := isCandidate g) (hf ▸ List.mem_cons_self a _)
    have hfi : a.fileIn = some g := ((isCandidate_iff g a).mp ha).1
    have hmr : ¬ ({ a with search := some (joinOR ((dictFromKeys
        ((a :: b :: t).flatMap (fun x => extract_emails (x.search.getD [])))).map
        (fun e => fromPref ++ e))) } : Rule) = r := by
      intro hEq
      rcases hs with h | h
      · have : ({ a with search := some (joinOR ((dictFromKeys
            ((a :: b :: t).flatMap (fun x => extract_emails (x.search.getD [])))).map
            (fun e => fromPref ++ e))) } : Rule).search = none := by rw [hEq, h]
        simp at this
      · have : ({ a with search := some (joinOR ((dictFromKeys
            ((a :: b :: t).flatMap (fun x => extract_emails (x.search.getD [])))).map
            (fun e => fromPref ++ e))) } : Rule).fileIn = none := by rw [hEq, h]
        rw [show ({ a with search := some (joinOR ((dictFromKeys
            ((a :: b :: t).flatMap (fun x => extract_emails (x.search.getD [])))).map
            (fun e => fromPref ++ e))) } : Rule).fileIn = a.fileIn from rfl, hfi] at this
        exact Option.noConfusion this
    rw [List.count_cons]
    simp only [beq_iff_eq, hmr, if_false]
    exact count_filter_of_pred _ lst r
      (by rw [isCandidate_false_of_missing r hs g]; rfl)

theorem count_foldl_missing (l : List (List Char)) (lst : List Rule) (r : Rule)
    (hs : r.search = none ∨ r.fileIn = none) :
    (l.foldl combine_rules_for_folder lst).count r = lst.count r := by
  induction l generalizing lst with
  | nil => rfl
  | cons g l ih =>
    rw [List.foldl_cons, ih _, count_combine_step lst g r hs]

/-! ### Claim theorems -/

/-- Claim C5: `classify` (`is_from_rule`) returns true iff the rule's `search`
is present and non-empty and, after splitting on the literal `" OR "` and
trimming, every term is the literal prefix `from:` followed by one or more
non-whitespace characters and nothing else; it is false when `search` is
absent, empty, or any term fails the pattern. -/
theorem is_from_rule_spec (r : Rule) :
    is_from_rule r = true ↔
      ∃ s, r.search = some s ∧ s ≠ [] ∧
        ∀ t ∈ (splitOR s).map stripChars,
          ∃ w, t = fromPref ++ w ∧ w ≠ [] ∧ ∀ c ∈ w, pySpace c = false := by
  constructor
  · intro h
    obtain ⟨s, hs, hne, hall⟩ := is_from_rule_elim r h
    refine ⟨s, hs, hne, ?_⟩
    intro t ht
    rw [List.all_eq_true] at hall
    exact (termMatches_iff t).mp (hall t ht)
  · rintro ⟨s, hs, hne, hall⟩
    unfold is_from_rule
    rw [hs]
    simp only [Bool.and_eq_true, List.all_eq_true]
    constructor
    · simpa using hne
    · intro t ht
      exact (termMatches_iff t).mpr (hall t ht)

/-- Claim C9: on a search text that satisfies `classify`, `extract_emails`
splits on the literal `" OR "`, trims each term, removes the 5-character
`from:` prefix from each term, and returns the addresses in term order. -/
theorem extract_emails_spec (s : List Char)
    (h : is_from_rule { search := some s, fileIn := none, payload := [] } = true) :
    extract_emails s
        = ((splitOR s).map stripChars).map (fun t => t.drop fromPref.length) ∧
      ∀ t ∈ (splitOR s).map stripChars, fromPref ++ (t.drop fromPref.length) = t := by
  refine ⟨rfl, ?_⟩
  intro t ht
  obtain ⟨s', hs', _, hall⟩ := is_from_rule_elim _ h
  have hss : some s = some s' := hs'
  injection hss with h1
  subst h1
  rw [List.all_eq_true] at hall
  obtain ⟨w, hw, _, _⟩ := (termMatches_iff t).mp (hall t ht)
  rw [hw, List.drop_left]

/-- Claim C9 witness: a concrete two-address search text. -/
theorem extract_emails_spec_witness :
    is_from_rule
        { search := some (fromPref ++ ['a'] ++ sepOR ++ fromPref ++ ['b']),
          fileIn := none, payload := [] } = true ∧
      (extract_emails (fromPref ++ ['a'] ++ sepOR ++ fromPref ++ ['b'])
          = ((splitOR (fromPref ++ ['a'] ++ sepOR ++ fromPref ++ ['b'])).map
              stripChars).map (fun t => t.drop fromPref.length) ∧
        ∀ t ∈ (splitOR (fromPref ++ ['a'] ++ sepOR ++ fromPref ++ ['b'])).map stripChars,
          fromPref ++ (t.drop fromPref.length) = t) :=
  ⟨by decide, extract_emails_spec _ (by decide)⟩

/-- Claim C6: with at most one qualifying candidate for the target folder,
`combine_rules_for_folder` returns the original sequence unchanged. -/
theorem combine_rules_for_folder_le_one_spec (rules : List Rule) (target : List Char)
    (h : candCount rules target ≤ 1) :
    combine_rules_for_folder rules target = rules :=
  combine_rules_le_one rules target h

/-- Claim C6 witness: a single qualifying candidate is left alone. -/
theorem combine_rules_for_folder_le_one_spec_witness :
    candCount
        [({ search := some (fromPref ++ ['a']), fileIn := some ['F'],
            payload := [] } : Rule)] ['F'] ≤ 1 ∧
      combine_rules_for_folder
          [({ search := some (fromPref ++ ['a']), fileIn := some ['F'],
              payload := [] } : Rule)] ['F']
        = [({ search := some (fromPref ++ ['a']), fileIn := some ['F'],
              payload := [] } : Rule)] :=
  ⟨by decide, combine_rules_for_folder_le_one_spec _ _ (by decide)⟩

/-- Claim C7: when no folder has two or more qualifying candidates,
`combine_all_folders` returns the input sequence unchanged. -/
theorem combine_all_folders_no_merge_spec (rules : List Rule)
    (h : ∀ f, candCount rules f ≤ 1) :
    combine_all_folders rules = rules :=
  foldl_combine_no_op _ _ (fun f _ => h f)

/-- Claim C7 witness: the empty rule sequence maps to the empty sequence. -/
theorem combine_all_folders_no_merge_spec_witness :
    (∀ f, candCount ([] : List Rule) f ≤ 1) ∧ combine_all_folders [] = [] :=
  ⟨fun f => by simp [candCount], combine_all_folders_no_merge_spec []
    (fun f => by simp [candCount])⟩

/-- Claim C2: `combine_all_folders` is idempotent — running it twice produces
the same sequence as running it once. -/
theorem combine_all_folders_idempotent (rules : List Rule) :
    combine_all_folders (combine_all_folders rules) = combine_all_folders rules := by
  have key : ∀ f ∈ (foldersOf (combine_all_folders rules)).insertionSort (· ≤ ·),
      candCount (combine_all_folders rules) f ≤ 1 := by
    intro f hf
    rw [List.mem_insertionSort, mem_foldersOf] at hf
    obtain ⟨r, _, _, hne, _⟩ := hf
    exact candCount_combine_all_le_one rules f hne
  exact foldl_combine_no_op _ _ key

/-- Claim C3: `combine_all_folders` computes the distinct folder names having
at least one qualifying candidate (non-empty `fileIn` and `is_from_rule`),
then folds `combine_rules_for_folder` over them in strictly ascending
lexicographic (code-point) order, each application operating on the output of
the previous one. -/
theorem combine_all_folders_fold_spec (rules : List Rule) :
    ∃ L : List (List Char),
      L.Nodup ∧ L.Sorted (· < ·) ∧
      (∀ f, f ∈ L ↔ ∃ r ∈ rules, r.fileIn = some f ∧ f ≠ [] ∧ is_from_rule r = true) ∧
      combine_all_folders rules = L.foldl combine_rules_for_folder rules := by
  refine ⟨(foldersOf rules).insertionSort (· ≤ ·), ?_, ?_, ?_, rfl⟩
  · exact ((List.perm_insertionSort _ _).nodup_iff).mpr (nodup_dictFromKeys _)
  · have hs := List.sorted_insertionSort (α := List Char) (· ≤ ·) (foldersOf rules)
    have hn : ((foldersOf rules).insertionSort (· ≤ ·)).Nodup :=
      ((List.perm_insertionSort _ _).nodup_iff).mpr (nodup_dictFromKeys _)
    exact (hs.and hn).imp (fun h => lt_of_le_of_ne h.1 h.2)
  · intro f
    rw [List.mem_insertionSort, mem_foldersOf]

/-- Claim C1: with at least two qualifying candidates, the result is the
merged rule — all fields copied from the first candidate except `search`,
which becomes the `" OR "`-join of `from:` + each address of the
de-duplicated, first-occurrence-order address list over all candidates in
original relative order — followed by the non-candidates in their original
relative order. -/
theorem combine_rules_for_folder_merge_spec (rules : List Rule) (target : List Char)
    (h : 2 ≤ candCount rules target) :
    ∃ first rest2, rules.filter (isCandidate target) = first :: rest2 ∧
      combine_rules_for_folder rules target =
        { search := some (joinOR ((firstOccurrenceDedup
              ((first :: rest2).flatMap (fun r => extract_emails (r.search.getD [])))).map
              (fun e => fromPref ++ e))),
          fileIn := first.fileIn,
          payload := first.payload }
          :: rules.filter (fun r => !isCandidate target r) := by
  unfold candCount at h
  rcases hf : rules.filter (isCandidate target) with _ | ⟨a, _ | ⟨b, t⟩⟩
  · rw [hf] at h; simp at h
  · rw [hf] at h; simp at h
  · refine ⟨a, b :: t, rfl, ?_⟩
    rw [combine_rules_merge rules target a b t hf, ← dictFromKeys_eq_firstOccurrenceDedup]

/-- Claim C1 witness: two candidate rules for folder `F` with a duplicated
address merge into one rule carrying the de-duplicated address list. -/
theorem combine_rules_for_folder_merge_spec_witness :
    2 ≤ candCount [exampleRuleA, exampleRuleAB] ['F'] ∧
      ∃ first rest2,
        List.filter (isCandidate ['F']) [exampleRuleA, exampleRuleAB] = first :: rest2 ∧
        combine_rules_for_folder [exampleRuleA, exampleRuleAB] ['F'] =
          { search := some (joinOR ((firstOccurrenceDedup
                ((first :: rest2).flatMap
                  (fun r => extract_emails (r.search.getD [])))).map
                (fun e => fromPref ++ e))),
            fileIn := first.fileIn,
            payload := first.payload }
            :: List.filter (fun r => !isCandidate ['F'] r) [exampleRuleA, exampleRuleAB] :=
  ⟨by decide, combine_rules_for_folder_merge_spec _ _ (by decide)⟩

/-- Claim C10: with at least two qualifying candidates, the merged rule that
`combine_rules_for_folder` places at the head of its result itself passes the
candidate test for the target folder — its rebuilt `search` is again a pure
sender-match expression. -/
theorem merged_rule_requalifies (rules : List Rule) (target : List Char)
    (h : 2 ≤ candCount rules target) :
    ∃ m rest2, combine_rules_for_folder rules target = m :: rest2 ∧
      isCandidate target m = true := by
  unfold candCount at h
  rcases hf : rules.filter (isCandidate target) with _ | ⟨a, _ | ⟨b, t⟩⟩
  · rw [hf] at h; simp at h
  · rw [hf] at h; simp at h
  · have hcands : ∀ x ∈ a :: b :: t, isCandidate target x = true :=
      fun x hx => List.of_mem_filter (p := isCandidate target) (hf ▸ hx)
    exact ⟨_, _, combine_rules_merge rules target a b t hf,
      merged_rule_isCandidate target a (a :: b :: t)
        (hcands a (List.mem_cons_self a _)) hcands (List.cons_ne_nil _ _)⟩

/-- Claim C10 witness: the merged rule of a concrete two-candidate folder
again qualifies as a candidate. -/
theorem merged_rule_requalifies_witness :
    2 ≤ candCount [exampleRuleA, exampleRuleB] ['F'] ∧
      ∃ m rest2,
        combine_rules_for_folder [exampleRuleA, exampleRuleB] ['F'] = m :: rest2 ∧
        isCandidate ['F'] m = true :=
  ⟨by decide, merged_rule_requalifies _ _ (by decide)⟩

/-- Claim C8: a rule whose `search` or `fileIn` is absent is never altered
and never merged by `combine_all_folders`; it occurs in the output, with all
of its fields exactly as in the input, as many times as it occurs in the
input. -/
theorem combine_all_folders_passthrough (rules : List Rule) (r : Rule)
    (hs : r.search = none ∨ r.fileIn = none) :
    (combine_all_folders rules).count r = rules.count r :=
  count_foldl_missing _ rules r hs

/-- Claim C8 witness: a searchless rule passes through unchanged. -/
theorem combine_all_folders_passthrough_witness :
    (exampleRuleNoSearch.search = none ∨ exampleRuleNoSearch.fileIn = none) ∧
      (combine_all_folders [exampleRuleNoSearch]).count exampleRuleNoSearch
        = [exampleRuleNoSearch].count exampleRuleNoSearch :=
  ⟨Or.inl rfl, combine_all_folders_passthrough _ _ (Or.inl rfl)⟩

/-- Claim C4: every input rule either occurs verbatim in the output of
`combine_all_folders`, or it was a qualifying candidate for its folder and
its whole address list is absorbed into the unique candidate rule that the
output contains for that folder. -/
theorem combine_all_folders_completeness (rules : List Rule) (r : Rule) (hr : r ∈ rules) :
    r ∈ combine_all_folders rules ∨
      ∃ f, isCandidate f r = true ∧
        ∃ m, m ∈ combine_all_folders rules ∧ isCandidate f m = true ∧
          (∀ e ∈ extract_emails (r.search.getD []),
            e ∈ extract_emails (m.search.getD [])) ∧
          ∀ m2 ∈ combine_all_folders rules, isCandidate f m2 = true → m2 = m := by
  have hnodup : ((foldersOf rules).insertionSort (· ≤ ·)).Nodup :=
    ((List.perm_insertionSort _ _).nodup_iff).mpr (nodup_dictFromKeys _)
  rcases foldl_absorb ((foldersOf rules).insertionSort (· ≤ ·)) rules r hr hnodup with
    h1 | ⟨g, hg, hcg, m, hm, hcm, hsub⟩
  · left; exact h1
  · right
    refine ⟨g, hcg, m, hm, hcm, hsub, ?_⟩
    intro m2 hm2 hcm2
    have hgne : g ≠ [] := by
      rw [List.mem_insertionSort, mem_foldersOf] at hg
      obtain ⟨_, _, _, hne, _⟩ := hg
      exact hne
    exact cand_unique_of_le_one (combine_all_folders rules) g
      (candCount_combine_all_le_one rules g hgne) m m2 hm hcm hm2 hcm2

/-- Claim C4 witness: applied to a one-rule list. -/
theorem combine_all_folders_completeness_witness :
    exampleRuleBare ∈ [exampleRuleBare] ∧
      (exampleRuleBare ∈ combine_all_folders [exampleRuleBare] ∨
        ∃ f, isCandidate f exampleRuleBare = true ∧
          ∃ m, m ∈ combine_all_folders [exampleRuleBare] ∧
            isCandidate f m = true ∧
            (∀ e ∈ extract_emails (exampleRuleBare.search.getD []),
              e ∈ extract_emails (m.search.getD [])) ∧
            ∀ m2 ∈ combine_all_folders [exampleRuleBare],
              isCandidate f m2 = true → m2 = m) :=
  ⟨by decide, combine_all_folders_completeness _ _ (by decide)⟩
